import Mathlib

/-!
# Verification of the unosmium.org results pipeline (`src/main.rs`)

A shallow embedding of the logo-catalog builder, logo resolver, theme-color
derivation loop and history-date resolver from `src/main.rs`, together with
proofs of the specified properties.

Rust strings are UTF-8 encoded sequences of Unicode scalar values.  Since
UTF-8 byte order coincides with code-point order, Rust's byte-lexicographic
`Ord` on `str`/`String` is exactly lexicographic order on the character
sequence, so strings are modelled by `String`/`List Char` with
character-lexicographic comparison.
-/

/-- Rust `str::split(sep)` over the character sequence: the list of
(possibly empty) segments between occurrences of `sep`.  As in Rust, the
result is always nonempty (`"".split(sep)` yields one empty segment). -/
def splitOnChar (sep : Char) : List Char → List (List Char)
  | [] => [[]]
  | c :: cs =>
    let r := splitOnChar sep cs
    if c = sep then [] :: r
    else
      match r with
      | [] => [[c]]
      | h :: t => (c :: h) :: t

theorem splitOnChar_ne_nil (sep : Char) (l : List Char) : splitOnChar sep l ≠ [] := by
  induction l with
  | nil => simp [splitOnChar]
  | cons c cs ih =>
    simp only [splitOnChar]
    split
    · simp
    · cases h : splitOnChar sep cs with
      | nil => simp
      | cons h t => simp [h]

theorem splitOnChar_of_not_mem {sep : Char} {l : List Char} (h : sep ∉ l) :
    splitOnChar sep l = [l] := by
  induction l with
  | nil => rfl
  | cons c cs ih =>
    have hc : c ≠ sep := fun hcs => h (hcs ▸ List.mem_cons_self c cs)
    have hcs : sep ∉ cs := fun hm => h (List.mem_cons_of_mem c hm)
    simp [splitOnChar, hc, ih hcs]

/-- Rust `[&str]::join("_")` over segment character sequences. -/
def underscoreJoin (segments : List (List Char)) : List Char :=
  List.intercalate ['_'] segments

/-- Rust `str::len`: the length of the string in UTF-8 bytes. -/
def utf8Len (l : List Char) : Nat := (l.map Char.utf8Size).sum

/-- The numeric value of a list of ASCII digits, most significant first. -/
def digitsVal (l : List Char) : Nat :=
  l.foldl (fun n c => n * 10 + (c.toNat - '0'.toNat)) 0

/-- Rust `u32::from_str` (used by `str::parse::<u32>()`): an optional
leading `+`, then one or more ASCII digits, whose value must fit in 32
bits; any other input is a parse error. -/
def parseU32 (l : List Char) : Option Nat :=
  let digits := match l with
    | '+' :: rest => rest
    | _ => l
  if digits ≠ [] ∧ digits.all Char.isDigit ∧ digitsVal digits < 2 ^ 32 then
    some (digitsVal digits)
  else none

/-! ## The logo catalog (`struct Logo`, `get_logo_info`)

`Logo` derives `Ord` in the source, which compares fields
lexicographically in declaration order: `division : Option<String>`
(`None` below every `Some`, `Some`s by string order), then
`minimum_year : u32`, then `path`, then `theme_color`.  This order is
modelled by `logoKey` into a lexicographic product, with `Option` mapped
to `WithBot` (whose `⊥` is below every coerced element, matching `None`). -/

structure Logo where
  division : Option String
  minimumYear : Nat
  path : String
  themeColor : String
deriving DecidableEq, Repr

/-- Rust `Option<String>` ordering: `None` is least, `Some`s compare by
the underlying string (as a character sequence). -/
def divKey : Option String → WithBot (List Char)
  | none => ⊥
  | some s => (s.data : WithBot (List Char))

/-- The codomain of the derived `Ord` key of `Logo`. -/
abbrev LogoKey := Lex ((WithBot (List Char)) × Lex (Nat × Lex ((List Char) × (List Char))))

/-- The derived `Ord` of `Logo`: lexicographic in
`(division, minimum_year, path, theme_color)`. -/
def logoKey (l : Logo) : LogoKey :=
  toLex (divKey l.division, toLex (l.minimumYear, toLex (l.path.data, l.themeColor.data)))

/-- The (total) `<=` of the derived `Ord` on `Logo`. -/
def logoLe (a b : Logo) : Prop := logoKey a ≤ logoKey b

instance : DecidableRel logoLe :=
  fun a b => inferInstanceAs (Decidable (logoKey a ≤ logoKey b))

instance : IsTotal Logo logoLe := ⟨fun a b => le_total (logoKey a) (logoKey b)⟩

instance : IsTrans Logo logoLe := ⟨fun _ _ _ h₁ h₂ => le_trans h₁ h₂⟩

/-- `logos.sort(); logos.reverse();` from `get_logo_info`: each bucket is
sorted ascending by the derived `Ord` and then reversed, i.e. sorted
descending.  (`Vec::sort` is a stable sort; since the derived `Ord` is
total and antisymmetric — logos comparing equal are field-wise equal —
every sort produces the same list, so a stable insertion sort is a
faithful model.) -/
def sortLogos (l : List Logo) : List Logo := (l.insertionSort logoLe).reverse

/-! ## Logo file-name parsing (`get_logo_info`, lines 138–153)

A logo file's stem (name with the extension stripped) is split on `_`;
the leading segment may be a year, a trailing one-byte segment is a
division code.  The Rust code indexes `splits[0]`, `splits[len-1]` and
slices `splits[start..len-1]`; the slice panics when `start > len-1`,
which is modelled by `none`. -/

structure LogoMeta where
  minimumYear : Nat
  division : Option String
  tournamentName : String
deriving DecidableEq, Repr

/-- The per-file parse of `get_logo_info`:
`minimum_year = splits[0].parse().unwrap_or(0)`,
`start_index = if minimum_year == 0 { 0 } else { 1 }`, then the
final-segment/division test with byte length, producing the
tournament-name join.  `none` models the panic of the slice
`splits[start_index..(splits.len() - 1)]` when `start_index` exceeds
`splits.len() - 1`. -/
def parseLogoStem (stem : String) : Option LogoMeta :=
  match splitOnChar '_' stem.data with
  | [] => none
  | s₀ :: rest =>
    let splits := s₀ :: rest
    let minimumYear := (parseU32 s₀).getD 0
    let startIndex := if minimumYear = 0 then 0 else 1
    let last := splits.getLast (List.cons_ne_nil s₀ rest)
    if utf8Len last = 1 then
      if startIndex + 1 ≤ splits.length then
        some ⟨minimumYear, some ⟨last⟩,
          ⟨underscoreJoin ((splits.take (splits.length - 1)).drop startIndex)⟩⟩
      else none
    else
      some ⟨minimumYear, none, ⟨underscoreJoin (splits.drop startIndex)⟩⟩

/-- The logo file-name grammar as the specification words it: if the
first segment parses as a non-zero unsigned integer it becomes
`minimum_year` and is excluded from the remaining segments; if the final
remaining segment has length exactly one byte it is the division and the
tournament name joins the segments strictly between; otherwise the
division is absent and the tournament name joins all remaining
segments. -/
def specLogoParse (stem : String) : LogoMeta :=
  match splitOnChar '_' stem.data with
  | [] => ⟨0, none, ""⟩
  | s₀ :: rest =>
    let pair : Nat × List (List Char) :=
      match parseU32 s₀ with
      | some y => if y = 0 then (0, s₀ :: rest) else (y, rest)
      | none => (0, s₀ :: rest)
    match pair.2.getLast? with
    | some last =>
      if utf8Len last = 1 then
        ⟨pair.1, some ⟨last⟩, ⟨underscoreJoin pair.2.dropLast⟩⟩
      else
        ⟨pair.1, none, ⟨underscoreJoin pair.2⟩⟩
    | none => ⟨pair.1, none, ""⟩

/-! ## Result file-name parsing and the resolver (`get_logo_path_and_color`) -/

structure ResultId where
  year : Nat
  division : String
  tournamentName : String
deriving DecidableEq, Repr

/-- Result file-name parsing from `get_logo_path_and_color`:
the year is the text before the first `-` (a failed `u32` parse panics);
the part after the first `_` is split at its last `_` into the
tournament name and a trailing token (a missing `_` on either step
panics — `splits[1]` on a one-element `splitn`/`rsplitn` result);
the division is the trailing token truncated at its first `.`.
`none` models the panics. -/
def parseResultName (s : String) : Option ResultId :=
  match parseU32 (splitOnChar '-' s.data).headI with
  | none => none
  | some year =>
    match splitOnChar '_' s.data with
    | _ :: r₁ :: r₂ :: rs =>
      let rest := r₁ :: r₂ :: rs
      some ⟨year,
        ⟨(splitOnChar '.' (rest.getLast (List.cons_ne_nil r₁ (r₂ :: rs)))).headI⟩,
        ⟨underscoreJoin rest.dropLast⟩⟩
    | _ => none

/-- `PathBuf::from("public/results/logos/default.png")`. -/
def defaultLogoPath : String := "public/results/logos/default.png"

/-- `"#303030".to_string()`. -/
def defaultThemeColor : String := "#303030"

/-- The resolver's candidate predicate, from the `find` closure:
`(logo.division.is_none() || logo.division.as_ref().unwrap() == division)
  && logo.minimum_year <= year`. -/
def satPred (year : Nat) (division : String) (logo : Logo) : Bool :=
  (logo.division.isNone || logo.division.iget == division) && logo.minimumYear ≤ year

/-- `get_logo_path_and_color`: parse the result file name, look the
tournament up in the catalog, scan its bucket for the first entry
satisfying `satPred`, and fall back to the fixed default path and color.
The catalog lookup (`HashMap::get`) is modelled as a function to
`Option`. -/
def getLogoPathAndColor (sourceFileName : String)
    (logoInfo : String → Option (List Logo)) : Option (String × String) :=
  match parseResultName sourceFileName with
  | none => none
  | some rid =>
    match logoInfo rid.tournamentName with
    | some logos =>
      match logos.find? (satPred rid.year rid.division) with
      | some logo => some (logo.path, logo.themeColor)
      | none => some (defaultLogoPath, defaultThemeColor)
    | none => some (defaultLogoPath, defaultThemeColor)

/-! ## Reference selection for the resolver (claim C1)

The specification's alternative description of the resolver: among all
entries satisfying the predicate, prefer division-qualified entries over
division-absent ones, and within the preferred group take the entry with
the highest `minimum_year` (the first such entry, in bucket order). -/

/-- The first entry of maximal `minimum_year` in a list. -/
def bestByYear (l : List Logo) : Option Logo :=
  l.foldl (fun best x =>
    match best with
    | none => some x
    | some b => if b.minimumYear < x.minimumYear then some x else some b) none

/-- The specification's reference selection. -/
def refSelect (year : Nat) (division : String) (l : List Logo) : Option Logo :=
  if ((l.filter (satPred year division)).filter (fun x => x.division.isSome)).isEmpty then
    bestByYear (l.filter (satPred year division))
  else
    bestByYear ((l.filter (satPred year division)).filter (fun x => x.division.isSome))

/-! ## Theme-color derivation loop (`get_theme_color`, lines 225–236)

The loop repeatedly darkens the candidate color while its contrast
against solid white is below `7.0`.  The contrast test
(`contrast::contrast`, WCAG relative-luminance ratio) and the darkening
step (`css_colors::darken(percent(1))`) are computed in the external
`contrast` and `css_colors` crates in floating point; the loop is
embedded parametrically over those two functions, with fuel for the
unbounded `while`: `none` models a run that has not exited within the
given fuel. -/

structure RGBColor where
  r : Nat
  g : Nat
  b : Nat
deriving DecidableEq, Repr

/-- `RGB8::new(255, 255, 255)`, the solid-white text color. -/
def white : RGBColor := ⟨255, 255, 255⟩

/-- The `while contrast(color, white) < 7.0 { color = color.darken(percent(1)) }`
loop of `get_theme_color`, parametric in the contrast and darken
functions. -/
def getThemeColorLoop (contrastFn : RGBColor → RGBColor → ℚ)
    (darkenStep : RGBColor → RGBColor) : Nat → RGBColor → Option RGBColor
  | 0, c => if contrastFn c white < 7 then none else some c
  | fuel + 1, c =>
    if contrastFn c white < 7 then
      getThemeColorLoop contrastFn darkenStep fuel (darkenStep c)
    else some c

/-! ## History date resolution (`get_date_added`, `get_date_from_git`, `NOW`)

Modelled from the spec: the `git log --format=%ai --reverse -- <path>`
subprocess together with the `OffsetDateTime` parse of its output is an
oracle `gitLog : String → Option CalDate` returning the earliest commit
date recorded for a path, or `none` when no history yields a parseable
date.  `NOW` (a `lazy_static`, sampled once per process) is a single
value `now` shared by every lookup of a run.  Dates are modelled at
calendar-day granularity, as `(year, month, day)` triples compared
lexicographically — exactly what `date.date() < date!(2020-07-08)`
compares. -/

abbrev CalDate := Nat × Nat × Nat

/-- Calendar-date comparison, `time::Date`'s `<`. -/
def dateLt (a b : CalDate) : Bool :=
  a.1 < b.1 || (a.1 = b.1 && (a.2.1 < b.2.1 || (a.2.1 = b.2.1 && a.2.2 < b.2.2)))

/-- `date!(2020 - 07 - 08)`: the day results moved from `data/` to `results/`. -/
def cutoverDate : CalDate := (2020, 7, 8)

/-- `get_date_from_git`: return the parsed earliest commit date for the
path, or fall back to the shared `NOW` value (with a warning, not an
error). -/
def getDateFromGit (gitLog : String → Option CalDate) (now : CalDate)
    (sourceFilePath : String) : CalDate :=
  match gitLog sourceFilePath with
  | some d => d
  | none => now

/-- `get_date_added`: look up `results/<name>`; if the resolved date
predates the cutover, retry once with `data/<name>` and return that
result instead. -/
def getDateAdded (gitLog : String → Option CalDate) (now : CalDate)
    (sourceFileName : String) : CalDate :=
  let date := getDateFromGit gitLog now ("results/" ++ sourceFileName)
  if dateLt date cutoverDate then
    getDateFromGit gitLog now ("data/" ++ sourceFileName)
  else date

/-! ## Order lemmas for the derived `Ord` of `Logo` -/

theorem divKey_inj {d₁ d₂ : Option String} (h : divKey d₁ = divKey d₂) : d₁ = d₂ := by
  cases d₁ with
  | none =>
    cases d₂ with
    | none => rfl
    | some s => exact absurd h (by simp [divKey])
  | some s =>
    cases d₂ with
    | none => exact absurd h (by simp [divKey])
    | some t =>
      simp only [divKey, WithBot.coe_inj] at h
      exact congrArg some (String.ext h)

theorem logoKey_inj {a b : Logo} (h : logoKey a = logoKey b) : a = b := by
  cases a with
  | mk ad ay ap ac =>
    cases b with
    | mk bd byr bp bc =>
      simp only [logoKey, toLex_inj, Prod.mk.injEq] at h
      obtain ⟨h₁, h₂, h₃, h₄⟩ := h
      simp only [Logo.mk.injEq]
      exact ⟨divKey_inj h₁, h₂, String.ext h₃, String.ext h₄⟩

/-- Case analysis of the derived order: a `<=`-comparison is a strict
division comparison, or equal divisions and a strict year comparison, or
equal divisions and years and a `(path, theme_color)` comparison. -/
theorem logoLe_cases {a b : Logo} (h : logoLe a b) :
    divKey a.division < divKey b.division ∨
      (a.division = b.division ∧
        (a.minimumYear < b.minimumYear ∨
          (a.minimumYear = b.minimumYear ∧
            toLex (a.path.data, a.themeColor.data) ≤
              toLex (b.path.data, b.themeColor.data)))) := by
  unfold logoLe logoKey at h
  rcases (Prod.Lex.le_iff _ _).1 h with h | ⟨hd, h⟩
  · exact Or.inl h
  · refine Or.inr ⟨divKey_inj hd, ?_⟩
    rcases (Prod.Lex.le_iff _ _).1 h with h | ⟨hy, h⟩
    · exact Or.inl h
    · exact Or.inr ⟨hy, h⟩

theorem sortLogos_sorted (l : List Logo) :
    List.Pairwise (fun a b => logoLe b a) (sortLogos l) := by
  unfold sortLogos
  rw [List.pairwise_reverse]
  exact List.sorted_insertionSort logoLe l

theorem sortLogos_perm (l : List Logo) : (sortLogos l).Perm l :=
  (List.reverse_perm _).trans (List.perm_insertionSort logoLe l)

/-! ## The first-match scan equals the reference selection (claim C1) -/

theorem satPred_iff {year : Nat} {d : String} {x : Logo} :
    satPred year d x = true ↔
      ((x.division = none ∨ x.division = some d) ∧ x.minimumYear ≤ year) := by
  cases hdiv : x.division with
  | none => simp [satPred, hdiv]
  | some s => simp [satPred, hdiv]

theorem foldl_best_keep {b : Logo} {l : List Logo}
    (h : ∀ x ∈ l, x.minimumYear ≤ b.minimumYear) :
    l.foldl (fun best x =>
      match best with
      | none => some x
      | some bb => if bb.minimumYear < x.minimumYear then some x else some bb)
      (some b) = some b := by
  induction l with
  | nil => rfl
  | cons x xs ih =>
    have hx : ¬ b.minimumYear < x.minimumYear :=
      not_lt.2 (h x (List.mem_cons_self x xs))
    simp only [List.foldl_cons, if_neg hx]
    exact ih fun y hy => h y (List.mem_cons_of_mem x hy)

theorem bestByYear_cons {x : Logo} {l : List Logo}
    (h : ∀ y ∈ l, y.minimumYear ≤ x.minimumYear) : bestByYear (x :: l) = some x := by
  unfold bestByYear
  simp only [List.foldl_cons]
  exact foldl_best_keep h

theorem find_eq_refSelect {year : Nat} {d : String} :
    ∀ {bucket : List Logo}, List.Pairwise (fun a b => logoLe b a) bucket →
      bucket.find? (satPred year d) = refSelect year d bucket := by
  intro bucket
  induction bucket with
  | nil => intro _; rfl
  | cons x xs ih =>
    intro hp
    have hhead : ∀ y ∈ xs, logoLe y x := (List.pairwise_cons.1 hp).1
    have htail := (List.pairwise_cons.1 hp).2
    by_cases hx : satPred year d x = true
    · rw [List.find?_cons_of_pos _ hx]
      obtain ⟨hdiv, _⟩ := satPred_iff.1 hx
      cases hdx : x.division with
      | some s =>
        have hsd : s = d := by
          rw [hdx] at hdiv
          rcases hdiv with h | h
          · cases h
          · exact Option.some.inj h
        have hQualMem : ∀ y ∈ (xs.filter (satPred year d)).filter
            (fun z => z.division.isSome), y.minimumYear ≤ x.minimumYear := by
          intro y hy
          obtain ⟨hy₁, hyIsSome⟩ := List.mem_filter.1 hy
          obtain ⟨hyMem, hySat⟩ := List.mem_filter.1 hy₁
          obtain ⟨hydiv, _⟩ := satPred_iff.1 hySat
          rcases hydiv with hnone | hsome
          · rw [hnone] at hyIsSome; cases hyIsSome
          · rcases logoLe_cases (hhead y hyMem) with hlt | ⟨_, hrest⟩
            · rw [hsome, hdx, hsd] at hlt
              exact absurd hlt (lt_irrefl _)
            · rcases hrest with hylt | ⟨hyeq, _⟩
              · exact le_of_lt hylt
              · exact le_of_eq hyeq
        have : refSelect year d (x :: xs) = some x := by
          unfold refSelect
          simp only [List.filter_cons, hx, if_true, hdx, Option.isSome_some,
            List.isEmpty_cons, Bool.false_eq_true, if_false]
          exact bestByYear_cons hQualMem
        rw [this]
      | none =>
        have hallnone : ∀ y ∈ xs, y.division = none := by
          intro y hy
          rcases logoLe_cases (hhead y hy) with hlt | ⟨hdeq, _⟩
          · rw [hdx] at hlt
            simp only [divKey] at hlt
            exact absurd hlt (not_lt_bot)
          · rw [hdx] at hdeq; exact hdeq
        have hq : ((x :: xs).filter (satPred year d)).filter
            (fun z => z.division.isSome) = [] := by
          rw [List.filter_eq_nil_iff]
          intro y hy
          obtain ⟨hyMem, _⟩ := List.mem_filter.1 hy
          rcases List.mem_cons.1 hyMem with rfl | hyMem
          · simp [hdx]
          · simp [hallnone y hyMem]
        have hSatMem : ∀ y ∈ xs.filter (satPred year d),
            y.minimumYear ≤ x.minimumYear := by
          intro y hy
          obtain ⟨hyMem, _⟩ := List.mem_filter.1 hy
          rcases logoLe_cases (hhead y hyMem) with hlt | ⟨_, hrest⟩
          · rw [hdx, hallnone y hyMem] at hlt
            simp only [divKey] at hlt
            exact absurd hlt (lt_irrefl _)
          · rcases hrest with hylt | ⟨hyeq, _⟩
            · exact le_of_lt hylt
            · exact le_of_eq hyeq
        have : refSelect year d (x :: xs) = some x := by
          unfold refSelect
          rw [hq]
          simp only [List.filter_cons, hx, if_true, List.isEmpty_nil, if_true]
          exact bestByYear_cons hSatMem
        rw [this]
    · have hx' : satPred year d x = false := Bool.not_eq_true _ ▸ Bool.of_not_eq_true hx
      rw [List.find?_cons_of_neg _ hx, ih htail]
      unfold refSelect
      simp only [List.filter_cons, hx', Bool.false_eq_true, if_false]

/-- C1: for every catalog bucket exactly as the logo-catalog builder sorts
it and every query (year, division) parsed from a result file name, the
resolver's first-match scan returns the same entry as the reference
selection that, among all entries satisfying the predicate, prefers
division-qualified entries over division-absent ones and, within the
group, takes the entry with the highest `minimum_year` not exceeding the
query year. -/
theorem first_match_eq_reference_selection (l : List Logo) (year : Nat) (d : String) :
    (sortLogos l).find? (satPred year d) = refSelect year d (sortLogos l) :=
  find_eq_refSelect (sortLogos_sorted l)

/-! ## Bucket ordering (claims C5 and C9) -/

/-- The `(division, minimum_year)` portion of the derived sort key. -/
def priorityKey (x : Logo) : Lex ((WithBot (List Char)) × Nat) :=
  toLex (divKey x.division, x.minimumYear)

theorem priorityKey_mono {a b : Logo} (h : logoLe a b) :
    priorityKey a ≤ priorityKey b := by
  unfold priorityKey
  rcases logoLe_cases h with hlt | ⟨hdeq, hrest⟩
  · exact (Prod.Lex.le_iff _ _).2 (Or.inl hlt)
  · refine (Prod.Lex.le_iff _ _).2 (Or.inr ⟨by rw [hdeq], ?_⟩)
    rcases hrest with hylt | ⟨hyeq, _⟩
    · exact le_of_lt hylt
    · exact le_of_eq hyeq

/-- C5 (amended): after catalog construction every bucket is sorted
descending by the lexicographic `(division, minimum_year)` key (division
compared as an optional value with absent least), and a division-absent
entry never precedes a division-qualified one; equal-`minimum_year`
absent entries need not be *directly* after their qualified
counterparts. -/
theorem bucket_sorted_by_priority (l : List Logo) :
    List.Pairwise (fun x y => priorityKey y ≤ priorityKey x ∧
      (y.division.isSome = true → x.division.isSome = true)) (sortLogos l) := by
  refine (sortLogos_sorted l).imp ?_
  intro x y h
  refine ⟨priorityKey_mono h, fun hy => ?_⟩
  cases hdx : x.division with
  | some s => rfl
  | none =>
    rcases logoLe_cases h with hlt | ⟨hdeq, _⟩
    · rw [hdx] at hlt
      simp only [divKey] at hlt
      exact absurd hlt not_lt_bot
    · rw [hdeq, hdx] at hy
      cases hy

/-- C5 (counterexample): in a sorted bucket containing a qualified
`(division a, 2019)` entry, a qualified `(division a, 2018)` entry and an
absent-division `2019` entry, the absent-division entry sorts to the very
end — the entry directly before it has `minimum_year` 2018, not 2019, so
ties on `minimum_year` do not place the absent entry directly after its
equal-year qualified counterpart. -/
theorem bucket_absent_entry_not_adjacent :
    sortLogos [⟨none, 2019, "p3", "c3"⟩, ⟨some "a", 2018, "p2", "c2"⟩,
        ⟨some "a", 2019, "p1", "c1"⟩] =
      [⟨some "a", 2019, "p1", "c1"⟩, ⟨some "a", 2018, "p2", "c2"⟩,
        ⟨none, 2019, "p3", "c3"⟩] ∧
    (sortLogos [⟨none, 2019, "p3", "c3"⟩, ⟨some "a", 2018, "p2", "c2"⟩,
        ⟨some "a", 2019, "p1", "c1"⟩])[2]? = some ⟨none, 2019, "p3", "c3"⟩ ∧
    (sortLogos [⟨none, 2019, "p3", "c3"⟩, ⟨some "a", 2018, "p2", "c2"⟩,
        ⟨some "a", 2019, "p1", "c1"⟩])[1]? = some ⟨some "a", 2018, "p2", "c2"⟩ ∧
    (2018 : Nat) ≠ 2019 := by
  refine ⟨by decide, by decide, by decide, by decide⟩

/-- C9: two same-bucket assets with equal division and equal
`minimum_year` are ordered by descending `(path, theme_color)`
comparison, and the catalog order is insertion-order independent: sorting
any permutation of a bucket yields the identical list. -/
theorem bucket_order_insertion_independent :
    (∀ l₂ l₃ : List Logo, l₂.Perm l₃ → sortLogos l₂ = sortLogos l₃) ∧
    (∀ l : List Logo, List.Pairwise (fun x y =>
        x.division = y.division → x.minimumYear = y.minimumYear →
          toLex (y.path.data, y.themeColor.data) ≤
            toLex (x.path.data, x.themeColor.data)) (sortLogos l)) := by
  constructor
  · intro l₂ l₃ hperm
    have hperm' : (sortLogos l₂).Perm (sortLogos l₃) :=
      ((sortLogos_perm l₂).trans hperm).trans (sortLogos_perm l₃).symm
    haveI : IsAntisymm Logo (fun a b => logoLe b a) :=
      ⟨fun a b h₁ h₂ => logoKey_inj (le_antisymm h₂ h₁)⟩
    exact List.eq_of_perm_of_sorted hperm' (sortLogos_sorted l₂) (sortLogos_sorted l₃)
  · intro l
    refine (sortLogos_sorted l).imp ?_
    intro x y h hdeq hyeq
    rcases logoLe_cases h with hlt | ⟨_, hrest⟩
    · rw [hdeq] at hlt
      exact absurd hlt (lt_irrefl _)
    · rcases hrest with hylt | ⟨_, hle⟩
      · rw [hyeq] at hylt
        exact absurd hylt (lt_irrefl _)
      · exact hle

/-- C9 (witness): sorting the two orderings of a concrete two-element
bucket yields the identical list. -/
theorem bucket_order_insertion_independent_witness :
    sortLogos [⟨some "a", 2019, "p1", "c1"⟩, ⟨none, 2019, "p3", "c3"⟩] =
      sortLogos [⟨none, 2019, "p3", "c3"⟩, ⟨some "a", 2019, "p1", "c1"⟩] :=
  bucket_order_insertion_independent.1 _ _ (by decide)

/-! ## Logo file-name parsing agreement (claim C4) -/

/-- C4 (counterexample): on the stem `5` — a single segment that parses
as the non-zero year 5 — the code panics (the slice
`splits[1..0]` is out of range, modelled as `none`) instead of producing
the triple the stated grammar prescribes. -/
theorem logo_stem_parse_panics_on_bare_year :
    parseLogoStem "5" = none ∧
    specLogoParse "5" = ⟨5, none, ""⟩ ∧
    parseLogoStem "5" ≠ some (specLogoParse "5") := by
  refine ⟨by decide, by decide, by decide⟩

/-- C4 (amended): whenever the logo-stem parse completes (the slice does
not panic — i.e. the stem is not a single segment of byte length 1
parsing as a non-zero year), the result is exactly the triple prescribed
by the stated grammar, reading "final remaining segment" as the stem's
final segment; in particular `2019_state_tournament_a` parses to
`(2019, division a, state_tournament)` and `state_tournament` parses to
`(0, absent, state_tournament)`. -/
theorem logo_stem_parse_follows_grammar :
    (∀ (stem : String) (r : LogoMeta), parseLogoStem stem = some r → r = specLogoParse stem) ∧
    parseLogoStem "2019_state_tournament_a" = some ⟨2019, some "a", "state_tournament"⟩ ∧
    parseLogoStem "state_tournament" = some ⟨0, none, "state_tournament"⟩ := by
  refine ⟨?_, by decide, by decide⟩
  intro stem r h
  unfold parseLogoStem at h
  unfold specLogoParse
  cases heq : splitOnChar '_' stem.data with
  | nil => rw [heq] at h; simp at h
  | cons s₀ rest =>
    rw [heq] at h
    dsimp only at h ⊢
    cases hy : parseU32 s₀ with
    | none =>
      rw [hy] at h
      simp only [Option.getD_none, reduceIte] at h ⊢
      rw [List.getLast?_eq_getLast (s₀ :: rest) (List.cons_ne_nil s₀ rest)]
      dsimp only
      by_cases hlast : utf8Len ((s₀ :: rest).getLast (List.cons_ne_nil s₀ rest)) = 1
      · rw [if_pos hlast] at h
        rw [if_pos (by simp)] at h
        injection h with h
        subst h
        rw [if_pos hlast, List.drop_zero, ← List.dropLast_eq_take]
      · rw [if_neg hlast] at h
        injection h with h
        subst h
        rw [if_neg hlast, List.drop_zero]
    | some y =>
      rw [hy] at h
      simp only [Option.getD_some] at h ⊢
      by_cases hy0 : y = 0
      · subst hy0
        simp only [reduceIte] at h ⊢
        rw [List.getLast?_eq_getLast (s₀ :: rest) (List.cons_ne_nil s₀ rest)]
        dsimp only
        by_cases hlast : utf8Len ((s₀ :: rest).getLast (List.cons_ne_nil s₀ rest)) = 1
        · rw [if_pos hlast] at h
          rw [if_pos (by simp)] at h
          injection h with h
          subst h
          rw [if_pos hlast, List.drop_zero, ← List.dropLast_eq_take]
        · rw [if_neg hlast] at h
          injection h with h
          subst h
          rw [if_neg hlast, List.drop_zero]
      · simp only [if_neg hy0] at h ⊢
        cases rest with
        | nil =>
          simp only [List.length_cons, List.length_nil, reduceIte] at h
          by_cases hlast : utf8Len ([s₀].getLast (List.cons_ne_nil s₀ [])) = 1
          · rw [if_pos hlast] at h
            cases h
          · rw [if_neg hlast] at h
            injection h with h
            subst h
            simp [underscoreJoin, List.intercalate]
        | cons r₁ rs =>
          have hne : (r₁ :: rs) ≠ [] := List.cons_ne_nil r₁ rs
          rw [List.getLast_cons hne] at h
          rw [List.getLast?_eq_getLast (r₁ :: rs) hne]
          dsimp only
          by_cases hlast : utf8Len ((r₁ :: rs).getLast hne) = 1
          · rw [if_pos hlast] at h
            rw [if_pos (by simp [Nat.succ_le_succ])] at h
            injection h with h
            subst h
            rw [if_pos hlast, ← List.dropLast_eq_take, List.dropLast_cons₂,
              List.drop_succ_cons, List.drop_zero]
          · rw [if_neg hlast] at h
            injection h with h
            subst h
            rw [if_neg hlast, List.drop_succ_cons, List.drop_zero]

/-- C4 (witness): the stem `a_b` parses, and its parse agrees with the
stated grammar. -/
theorem logo_stem_parse_follows_grammar_witness :
    (⟨0, some "b", "a"⟩ : LogoMeta) = specLogoParse "a_b" :=
  logo_stem_parse_follows_grammar.1 "a_b" ⟨0, some "b", "a"⟩ (by decide)

/-! ## Default fallback and malformed names (claims C6, C7) -/

/-- C6: for every result file name that parses, if the parsed tournament
name has no catalog bucket, or no entry of its bucket satisfies the
division/minimum-year predicate, resolution returns exactly the fixed
default logo path `public/results/logos/default.png` and the fixed
default color `#303030`. -/
theorem resolver_default_fallback (s : String) (rid : ResultId)
    (cat : String → Option (List Logo))
    (hparse : parseResultName s = some rid)
    (hmiss : cat rid.tournamentName = none ∨
      ∃ bucket, cat rid.tournamentName = some bucket ∧
        bucket.find? (satPred rid.year rid.division) = none) :
    getLogoPathAndColor s cat = some (defaultLogoPath, defaultThemeColor) := by
  unfold getLogoPathAndColor
  rw [hparse]
  dsimp only
  rcases hmiss with hmiss | ⟨bucket, hb, hfind⟩
  · rw [hmiss]
  · rw [hb]
    dsimp only
    rw [hfind]

/-- C6 (witness): a result name whose tournament has no bucket at all
resolves to the default pair. -/
theorem resolver_default_fallback_witness :
    getLogoPathAndColor "2019-04-06_foo_b.yaml" (fun _ => none) =
      some (defaultLogoPath, defaultThemeColor) :=
  resolver_default_fallback _ ⟨2019, "b", "foo"⟩ _ (by decide) (Or.inl rfl)

/-- C7: a result file name whose text before the first `-` does not parse
as an unsigned 32-bit year, or which contains no `_` at all, makes the
resolver fail (the model of the source's panic); it never returns a
default or zero/empty identity for such a name. -/
theorem resolver_rejects_malformed_names (s : String)
    (cat : String → Option (List Logo))
    (h : parseU32 (splitOnChar '-' s.data).headI = none ∨ '_' ∉ s.data) :
    getLogoPathAndColor s cat = none := by
  have hparse : parseResultName s = none := by
    unfold parseResultName
    rcases h with h | h
    · rw [h]
    · rw [splitOnChar_of_not_mem h]
      cases parseU32 (splitOnChar '-' s.data).headI <;> rfl
  unfold getLogoPathAndColor
  rw [hparse]

/-- C7 (witness): the name `2019` has a parseable year but no underscore,
so resolution fails rather than defaulting. -/
theorem resolver_rejects_malformed_names_witness :
    getLogoPathAndColor "2019" (fun _ => none) = none :=
  resolver_rejects_malformed_names _ _ (Or.inr (by decide))

/-! ## Theme-color loop postcondition (claim C2) -/

/-- C2: for every contrast function and darkening step (in the source,
the f32 WCAG-ratio of the `contrast` crate and `darken(percent(1))` of
the `css_colors` crate), every fuel and every starting color, if the
theme-color loop returns a color then that color's contrast against
solid white is at least 7 — the loop can only exit its `while` with the
guard false. -/
theorem theme_color_contrast_at_least_seven
    (contrastFn : RGBColor → RGBColor → ℚ) (darkenStep : RGBColor → RGBColor) :
    ∀ (fuel : Nat) (c₀ c : RGBColor),
      getThemeColorLoop contrastFn darkenStep fuel c₀ = some c →
        7 ≤ contrastFn c white := by
  intro fuel
  induction fuel with
  | zero =>
    intro c₀ c h
    unfold getThemeColorLoop at h
    split at h
    · cases h
    · injection h with h
      subst h
      exact not_lt.1 (by assumption)
  | succ n ih =>
    intro c₀ c h
    unfold getThemeColorLoop at h
    split at h
    · exact ih _ _ h
    · injection h with h
      subst h
      exact not_lt.1 (by assumption)

/-- C2 (witness): a loop run that exits immediately returns a color whose
contrast value is at least 7. -/
theorem theme_color_contrast_at_least_seven_witness :
    (7 : ℚ) ≤ (fun (_ _ : RGBColor) => (21 : ℚ)) ⟨48, 48, 48⟩ white :=
  theme_color_contrast_at_least_seven (fun _ _ => 21) (fun c => c) 0 ⟨48, 48, 48⟩
    ⟨48, 48, 48⟩ (by norm_num [getThemeColorLoop])

/-! ## History date resolution (claims C8, C10) -/

/-- C8: the date-added resolver returns the primary `results/<name>`
lookup's result; exactly when that result predates the 2020-07-08
cutover it performs one retry with the legacy `data/<name>` path and
returns that lookup's result instead; and when no history yields a
parseable date for either path the result is the wall-clock value `now`
and no error is raised. -/
theorem date_added_retry_and_fallback (gitLog : String → Option CalDate)
    (now : CalDate) (name : String) :
    (getDateAdded gitLog now name =
      if dateLt (getDateFromGit gitLog now ("results/" ++ name)) cutoverDate then
        getDateFromGit gitLog now ("data/" ++ name)
      else getDateFromGit gitLog now ("results/" ++ name)) ∧
    (gitLog ("results/" ++ name) = none → gitLog ("data/" ++ name) = none →
      getDateAdded gitLog now name = now) := by
  constructor
  · rfl
  · intro h₁ h₂
    unfold getDateAdded getDateFromGit
    rw [h₁, h₂]
    dsimp only
    split <;> rfl

/-- C8 (witness): with no history at all, the resolver returns the
wall-clock value. -/
theorem date_added_retry_and_fallback_witness :
    getDateAdded (fun _ => (none : Option CalDate)) (2021, 1, 1) "x" = (2021, 1, 1) :=
  (date_added_retry_and_fallback (fun _ => none) (2021, 1, 1) "x").2 rfl rfl

/-- C10 (counterexample): with the wall clock set before the cutover
date, a fallback on the primary path does trigger the legacy-path retry
— the resolver returns the legacy lookup's value, not the fallback time
— so the fallback value is not "never before the cutover date". -/
theorem fallback_before_cutover_triggers_retry :
    dateLt (2019, 1, 1) cutoverDate = true ∧
    getDateAdded (fun p => if p = "data/x" then some (2018, 5, 5) else none)
      (2019, 1, 1) "x" = (2018, 5, 5) ∧
    ((2018, 5, 5) : CalDate) ≠ (2019, 1, 1) := by
  refine ⟨by decide, by decide, by decide⟩

/-- C10 (amended): the wall-clock fallback is sampled once per run, so
two files whose git lookups all fail receive the identical timestamp;
and provided the run's wall clock is not before the cutover date, a
fallback on the primary path triggers no legacy retry — the result is
`now` no matter what history the legacy path has. -/
theorem now_sampled_once (gitLog : String → Option CalDate) (now : CalDate)
    (n₁ n₂ : String) :
    (gitLog ("results/" ++ n₁) = none → gitLog ("data/" ++ n₁) = none →
     gitLog ("results/" ++ n₂) = none → gitLog ("data/" ++ n₂) = none →
      getDateAdded gitLog now n₁ = getDateAdded gitLog now n₂) ∧
    (dateLt now cutoverDate = false → gitLog ("results/" ++ n₁) = none →
      getDateAdded gitLog now n₁ = now) := by
  constructor
  · intro h₁ h₂ h₃ h₄
    unfold getDateAdded getDateFromGit
    rw [h₁, h₂, h₃, h₄]
  · intro hnow h₁
    unfold getDateAdded getDateFromGit
    rw [h₁]
    dsimp only
    rw [hnow]
    simp

/-- C10 (witness): two history-less files share the identical fallback
timestamp, and with a post-cutover clock a primary-path fallback ignores
the legacy path's history. -/
theorem now_sampled_once_witness :
    getDateAdded (fun _ => (none : Option CalDate)) (2021, 1, 1) "x" =
      getDateAdded (fun _ => (none : Option CalDate)) (2021, 1, 1) "y" ∧
    getDateAdded (fun p => if p = "data/x" then some (2018, 5, 5) else none)
      (2021, 1, 1) "x" = (2021, 1, 1) :=
  ⟨(now_sampled_once (fun _ => none) (2021, 1, 1) "x" "y").1 rfl rfl rfl rfl,
   (now_sampled_once _ (2021, 1, 1) "x" "x").2 (by decide) (by decide)⟩
